import Mathlib

/-!
Verification of the 2-bit ADPCM codec of this repository.

The encoder is `encode_2bit_adpcm` in `scripts/wav_to_adpcm_c.py`; the
decoder is `decode_2bit_adpcm` in `scripts/adpcm_2bit_decoder.py`.  Both
are embedded below, each in its own namespace mirroring its own file
(each Python file carries its own copy of the step table and the index
table, and its own state-update arithmetic).  Samples are modelled as
`Nat` (the Python functions iterate over `bytes`, yielding ints 0..255;
the arithmetic is total over any nonnegative integers), the running
predictor as `Int` (Python `int`, clamped into [0,255] after every
update), and the step index as `Nat` (clamped into [0,15]).
-/

/-- The quantizer state shared by encoder and decoder:
`predictor = 128, step_index = 0` initially, clamped after each update. -/
structure AdpcmState where
  predictor : Int
  step_index : Nat
deriving DecidableEq, Repr

/-- Initial state used by both `encode_2bit_adpcm` and `decode_2bit_adpcm`
(`predictor = 128  # Start at mid-point`, `step_index = 0`). -/
def initState : AdpcmState := ⟨128, 0⟩

namespace AdpcmEnc

/-- `step_table` of `encode_2bit_adpcm` (wav_to_adpcm_c.py line 32). -/
def step_table : List Nat := [2, 3, 4, 5, 6, 8, 10, 13, 16, 20, 25, 32, 40, 50, 63, 80]

/-- `index_table` of `encode_2bit_adpcm` (wav_to_adpcm_c.py line 35). -/
def index_table : List Int := [-1, -1, 2, 2]

/-- The code-selection branch of the encoder (wav_to_adpcm_c.py lines 60-67):
thresholds `-step - step // 2`, `0`, `step + step // 2` with Python floor
division `//` (here `Nat` division, since `step` is a nonnegative table
entry). -/
def chooseCode (diff : Int) (step : Nat) : Nat :=
  if diff < -(step : Int) - ((step / 2 : Nat) : Int) then 2
  else if diff < 0 then 0
  else if diff < (step : Int) + ((step / 2 : Nat) : Int) then 1
  else 3

/-- The delta applied for a code (wav_to_adpcm_c.py lines 76-83). -/
def delta (code : Nat) (step : Nat) : Int :=
  if code == 0 then -(step : Int)
  else if code == 1 then (step : Int)
  else if code == 2 then -(step : Int) * 2
  else (step : Int) * 2

/-- The encoder's per-code state update (wav_to_adpcm_c.py lines 74-98):
clamp the new predictor into [0,255], adapt the step index via
`index_table` and clamp it into [0,15]. -/
def updateState (st : AdpcmState) (code : Nat) : AdpcmState :=
  let step := step_table.getD st.step_index 0
  let d := delta code step
  let new_predictor := st.predictor + d
  let new_predictor := if new_predictor < 0 then 0
    else if new_predictor > 255 then (255 : Int) else new_predictor
  let si : Int := (st.step_index : Int) + index_table.getD code 0
  let si := if si < 0 then 0 else if si > 15 then (15 : Int) else si
  ⟨new_predictor, si.toNat⟩

/-- The encoder's main loop (wav_to_adpcm_c.py lines 44-109): per sample,
choose a code from `diff = sample - predictor`, pack it into the current
byte at shift `6 - sample_in_byte * 2`, update the state, emit the byte
after four codes, and emit a final partially-filled byte if any. -/
def encodeLoop : List Nat → AdpcmState → Nat → Nat → List Nat
  | [], _, current_byte, sample_in_byte =>
    if sample_in_byte > 0 then [current_byte] else []
  | sample :: rest, st, current_byte, sample_in_byte =>
    let diff : Int := (sample : Int) - st.predictor
    let step := step_table.getD st.step_index 0
    let code := chooseCode diff step
    let shift := 6 - sample_in_byte * 2
    let current_byte := current_byte ||| (code <<< shift)
    let st := updateState st code
    let sample_in_byte := sample_in_byte + 1
    if sample_in_byte ≥ 4 then current_byte :: encodeLoop rest st 0 0
    else encodeLoop rest st current_byte sample_in_byte

/-- `encode_2bit_adpcm(audio_data)` (wav_to_adpcm_c.py lines 20-111). -/
def encode_2bit_adpcm (audio_data : List Nat) : List Nat :=
  encodeLoop audio_data ⟨128, 0⟩ 0 0

/-- The sequence of 2-bit codes the encoder chooses, in order (the values
`code` of wav_to_adpcm_c.py lines 60-67, before packing). -/
def encCodes : AdpcmState → List Nat → List Nat
  | _, [] => []
  | st, sample :: rest =>
    let code := chooseCode ((sample : Int) - st.predictor) (step_table.getD st.step_index 0)
    code :: encCodes (updateState st code) rest

/-- The encoder's state trajectory: the state after each per-sample update. -/
def encStates : AdpcmState → List Nat → List AdpcmState
  | _, [] => []
  | st, sample :: rest =>
    let code := chooseCode ((sample : Int) - st.predictor) (step_table.getD st.step_index 0)
    let st' := updateState st code
    st' :: encStates st' rest

/-- The encoder's per-sample reconstruction values: the clamped
`new_predictor` (wav_to_adpcm_c.py lines 86-91) computed for each sample. -/
def encRecons : AdpcmState → List Nat → List Int
  | _, [] => []
  | st, sample :: rest =>
    let code := chooseCode ((sample : Int) - st.predictor) (step_table.getD st.step_index 0)
    let st' := updateState st code
    st'.predictor :: encRecons st' rest

/-- The packing part of the encoder loop, abstracted over an already-chosen
code list: same byte-assembly as `encodeLoop` (wav_to_adpcm_c.py lines
69-109). -/
def packLoop : List Nat → Nat → Nat → List Nat
  | [], current_byte, sample_in_byte =>
    if sample_in_byte > 0 then [current_byte] else []
  | code :: rest, current_byte, sample_in_byte =>
    let current_byte := current_byte ||| (code <<< (6 - sample_in_byte * 2))
    if sample_in_byte + 1 ≥ 4 then current_byte :: packLoop rest 0 0
    else packLoop rest current_byte (sample_in_byte + 1)

end AdpcmEnc

namespace AdpcmDec

/-- `step_table` of `decode_2bit_adpcm` (adpcm_2bit_decoder.py line 22). -/
def step_table : List Nat := [2, 3, 4, 5, 6, 8, 10, 13, 16, 20, 25, 32, 40, 50, 63, 80]

/-- `index_table` of `decode_2bit_adpcm` (adpcm_2bit_decoder.py line 25). -/
def index_table : List Int := [-1, -1, 2, 2]

/-- The decoder's per-code step (adpcm_2bit_decoder.py lines 39-67):
compute the delta for the code, clamp the new predictor into [0,255],
output it as the decoded sample, then adapt the step index and clamp it
into [0,15].  Returns the decoded sample and the new state. -/
def decodeStep (st : AdpcmState) (code : Nat) : Int × AdpcmState :=
  let step := step_table.getD st.step_index 0
  let delta : Int := if code == 0 then -(step : Int)
    else if code == 1 then (step : Int)
    else if code == 2 then -(step : Int) * 2
    else (step : Int) * 2
  let new_predictor := st.predictor + delta
  let new_predictor := if new_predictor < 0 then 0
    else if new_predictor > 255 then (255 : Int) else new_predictor
  let si : Int := (st.step_index : Int) + index_table.getD code 0
  let si := if si < 0 then 0 else if si > 15 then (15 : Int) else si
  (new_predictor, ⟨new_predictor, si.toNat⟩)

/-- The decoder's inner loop over `i in range(4)` (adpcm_2bit_decoder.py
lines 35-67): extract the code at shift `6 - i * 2`, mask with `0x03`,
run `decodeStep`. -/
def decodeByteLoop (byte_val : Nat) : List Nat → AdpcmState → List Int × AdpcmState
  | [], st => ([], st)
  | i :: rest, st =>
    let shift := 6 - i * 2
    let code := (byte_val >>> shift) &&& 0x03
    let r := decodeStep st code
    let rr := decodeByteLoop byte_val rest r.2
    (r.1 :: rr.1, rr.2)

/-- The decoder's outer loop over the compressed bytes
(adpcm_2bit_decoder.py lines 32-67). -/
def decodeLoop : List Nat → AdpcmState → List Int
  | [], _ => []
  | byte_val :: rest, st =>
    let r := decodeByteLoop byte_val (List.range 4) st
    r.1 ++ decodeLoop rest r.2

/-- `decode_2bit_adpcm(compressed_data)` (adpcm_2bit_decoder.py lines
14-69).  It takes no sample-count argument: every byte yields 4 samples. -/
def decode_2bit_adpcm (compressed_data : List Nat) : List Int :=
  decodeLoop compressed_data ⟨128, 0⟩

/-- The four 2-bit codes the decoder extracts from one byte, in extraction
order (shifts 6, 4, 2, 0; adpcm_2bit_decoder.py lines 35-37). -/
def byteCodes (byte_val : Nat) : List Nat :=
  [(byte_val >>> 6) &&& 0x03, (byte_val >>> 4) &&& 0x03,
   (byte_val >>> 2) &&& 0x03, (byte_val >>> 0) &&& 0x03]

/-- All codes the decoder extracts from a byte sequence, in order. -/
def unpackCodes : List Nat → List Nat
  | [] => []
  | b :: rest => byteCodes b ++ unpackCodes rest

/-- The decoder run at code granularity: one decoded sample per code. -/
def decSamples : AdpcmState → List Nat → List Int
  | _, [] => []
  | st, code :: rest =>
    let r := decodeStep st code
    r.1 :: decSamples r.2 rest

/-- The decoder's state trajectory at code granularity. -/
def decStates : AdpcmState → List Nat → List AdpcmState
  | _, [] => []
  | st, code :: rest =>
    let r := decodeStep st code
    r.2 :: decStates r.2 rest

/-- The decoder's state after consuming a list of codes. -/
def decFinal : AdpcmState → List Nat → AdpcmState
  | st, [] => st
  | st, code :: rest => decFinal (decodeStep st code).2 rest

end AdpcmDec

/-- The decoder's per-code step computes exactly the encoder's per-code
state update, and outputs that update's predictor as the sample. -/
theorem decodeStep_eq_updateState (st : AdpcmState) (code : Nat) :
    AdpcmDec.decodeStep st code =
      ((AdpcmEnc.updateState st code).predictor, AdpcmEnc.updateState st code) := rfl

/-- Every encoder/decoder state update lands in the legal range, from any
input state. -/
theorem updateState_bounds (st : AdpcmState) (code : Nat) :
    0 ≤ (AdpcmEnc.updateState st code).predictor ∧
    (AdpcmEnc.updateState st code).predictor ≤ 255 ∧
    (AdpcmEnc.updateState st code).step_index ≤ 15 := by
  unfold AdpcmEnc.updateState
  dsimp only
  refine ⟨?_, ?_, ?_⟩ <;> (repeat' split) <;> omega

/-- The encoder loop is the packing loop applied to the codes it chooses. -/
theorem encodeLoop_eq_packLoop (samples : List Nat) :
    ∀ (st : AdpcmState) (cb sib : Nat),
      AdpcmEnc.encodeLoop samples st cb sib =
        AdpcmEnc.packLoop (AdpcmEnc.encCodes st samples) cb sib := by
  induction samples with
  | nil => intro st cb sib; rfl
  | cons s rest ih =>
    intro st cb sib
    simp only [AdpcmEnc.encodeLoop, AdpcmEnc.encCodes, AdpcmEnc.packLoop]
    split <;> simp [ih]

/-- Every code the encoder chooses is one of 0,1,2,3. -/
theorem chooseCode_lt_four (diff : Int) (step : Nat) :
    AdpcmEnc.chooseCode diff step < 4 := by
  unfold AdpcmEnc.chooseCode
  repeat' split
  all_goals omega

/-- All codes of `encCodes` are below 4. -/
theorem encCodes_lt_four (samples : List Nat) :
    ∀ (st : AdpcmState), ∀ c ∈ AdpcmEnc.encCodes st samples, c < 4 := by
  induction samples with
  | nil => intro st c hc; simp [AdpcmEnc.encCodes] at hc
  | cons s rest ih =>
    intro st c hc
    simp only [AdpcmEnc.encCodes, List.mem_cons] at hc
    rcases hc with h | h
    · exact h ▸ chooseCode_lt_four _ _
    · exact ih _ c h

/-- `encCodes` yields one code per sample. -/
theorem encCodes_length (samples : List Nat) :
    ∀ st : AdpcmState, (AdpcmEnc.encCodes st samples).length = samples.length := by
  induction samples with
  | nil => intro st; rfl
  | cons s rest ih => intro st; simp [AdpcmEnc.encCodes, ih]

/-- `encRecons` yields one reconstruction per sample. -/
theorem encRecons_length (samples : List Nat) :
    ∀ st : AdpcmState, (AdpcmEnc.encRecons st samples).length = samples.length := by
  induction samples with
  | nil => intro st; rfl
  | cons s rest ih => intro st; simp [AdpcmEnc.encRecons, ih]

/-- `decSamples` yields one sample per code. -/
theorem decSamples_length (codes : List Nat) :
    ∀ st : AdpcmState, (AdpcmDec.decSamples st codes).length = codes.length := by
  induction codes with
  | nil => intro st; rfl
  | cons c rest ih => intro st; simp [AdpcmDec.decSamples, ih]

/-- `decSamples` splits over list append, threading the state. -/
theorem decSamples_append (xs : List Nat) :
    ∀ (st : AdpcmState) (ys : List Nat),
      AdpcmDec.decSamples st (xs ++ ys) =
        AdpcmDec.decSamples st xs ++ AdpcmDec.decSamples (AdpcmDec.decFinal st xs) ys := by
  induction xs with
  | nil => intro st ys; rfl
  | cons x rest ih =>
    intro st ys
    simp [AdpcmDec.decSamples, AdpcmDec.decFinal, ih]

/-- The decoder's inner loop over `range 4` is `decSamples`/`decFinal` on
the four codes extracted from the byte. -/
theorem decodeByteLoop_eq (b : Nat) (st : AdpcmState) :
    AdpcmDec.decodeByteLoop b (List.range 4) st =
      (AdpcmDec.decSamples st (AdpcmDec.byteCodes b),
       AdpcmDec.decFinal st (AdpcmDec.byteCodes b)) := by
  show AdpcmDec.decodeByteLoop b [0, 1, 2, 3] st = _
  simp [AdpcmDec.decodeByteLoop, AdpcmDec.decSamples, AdpcmDec.decFinal, AdpcmDec.byteCodes]

/-- The decoder loop is `decSamples` applied to all extracted codes. -/
theorem decodeLoop_eq_decSamples (bytes : List Nat) :
    ∀ st : AdpcmState,
      AdpcmDec.decodeLoop bytes st = AdpcmDec.decSamples st (AdpcmDec.unpackCodes bytes) := by
  induction bytes with
  | nil => intro st; rfl
  | cons b rest ih =>
    intro st
    simp only [AdpcmDec.decodeLoop, AdpcmDec.unpackCodes, decodeByteLoop_eq, ih,
      decSamples_append]

/-- Decoding a byte packed from four 2-bit codes recovers the codes. -/
theorem byteCodes_pack4 (a b c d : Nat) (ha : a < 4) (hb : b < 4) (hc : c < 4) (hd : d < 4) :
    AdpcmDec.byteCodes (a <<< 6 ||| b <<< 4 ||| c <<< 2 ||| d) = [a, b, c, d] := by
  have key : ∀ x y z w : Fin 4,
      AdpcmDec.byteCodes ((x : Nat) <<< 6 ||| (y : Nat) <<< 4 ||| (z : Nat) <<< 2 ||| (w : Nat)) =
        [(x : Nat), (y : Nat), (z : Nat), (w : Nat)] := by decide
  exact key ⟨a, ha⟩ ⟨b, hb⟩ ⟨c, hc⟩ ⟨d, hd⟩

/-- Decoding a byte packed from one 2-bit code recovers it, low pairs 0. -/
theorem byteCodes_pack1 (a : Nat) (ha : a < 4) :
    AdpcmDec.byteCodes (a <<< 6) = [a, 0, 0, 0] := by
  have key : ∀ x : Fin 4,
      AdpcmDec.byteCodes ((x : Nat) <<< 6) = [(x : Nat), 0, 0, 0] := by decide
  exact key ⟨a, ha⟩

/-- Decoding a byte packed from two 2-bit codes recovers them, low pairs 0. -/
theorem byteCodes_pack2 (a b : Nat) (ha : a < 4) (hb : b < 4) :
    AdpcmDec.byteCodes (a <<< 6 ||| b <<< 4) = [a, b, 0, 0] := by
  have key : ∀ x y : Fin 4,
      AdpcmDec.byteCodes ((x : Nat) <<< 6 ||| (y : Nat) <<< 4) = [(x : Nat), (y : Nat), 0, 0] := by
    decide
  exact key ⟨a, ha⟩ ⟨b, hb⟩

/-- Decoding a byte packed from three 2-bit codes recovers them, low pair 0. -/
theorem byteCodes_pack3 (a b c : Nat) (ha : a < 4) (hb : b < 4) (hc : c < 4) :
    AdpcmDec.byteCodes (a <<< 6 ||| b <<< 4 ||| c <<< 2) = [a, b, c, 0] := by
  have key : ∀ x y z : Fin 4,
      AdpcmDec.byteCodes ((x : Nat) <<< 6 ||| (y : Nat) <<< 4 ||| (z : Nat) <<< 2) =
        [(x : Nat), (y : Nat), (z : Nat), 0] := by decide
  exact key ⟨a, ha⟩ ⟨b, hb⟩ ⟨c, hc⟩

/-- Unpacking the packed form of a code list gives the codes back, followed
by the zero codes of the padded final byte. -/
theorem unpackCodes_packLoop :
    ∀ codes : List Nat, (∀ x ∈ codes, x < 4) →
      AdpcmDec.unpackCodes (AdpcmEnc.packLoop codes 0 0) =
        codes ++ List.replicate ((4 - codes.length % 4) % 4) 0
  | [], _ => rfl
  | [a], h => by
    have key := byteCodes_pack1 a (h a (by simp))
    simp [AdpcmEnc.packLoop, AdpcmDec.unpackCodes, key, List.replicate]
  | [a, b], h => by
    have key := byteCodes_pack2 a b (h a (by simp)) (h b (by simp))
    simp [AdpcmEnc.packLoop, AdpcmDec.unpackCodes, key, List.replicate]
  | [a, b, c], h => by
    have key := byteCodes_pack3 a b c (h a (by simp)) (h b (by simp)) (h c (by simp))
    simp [AdpcmEnc.packLoop, AdpcmDec.unpackCodes, key, List.replicate]
  | a :: b :: c :: d :: rest, h => by
    have key := byteCodes_pack4 a b c d (h a (by simp)) (h b (by simp)) (h c (by simp))
      (h d (by simp))
    have ih := unpackCodes_packLoop rest (fun x hx => h x (by simp [hx]))
    have hstep : AdpcmEnc.packLoop (a :: b :: c :: d :: rest) 0 0 =
        (a <<< 6 ||| b <<< 4 ||| c <<< 2 ||| d) :: AdpcmEnc.packLoop rest 0 0 := by
      simp [AdpcmEnc.packLoop]
    rw [hstep]
    show AdpcmDec.byteCodes _ ++ AdpcmDec.unpackCodes (AdpcmEnc.packLoop rest 0 0) = _
    rw [key, ih]
    have hmod : (a :: b :: c :: d :: rest).length % 4 = rest.length % 4 := by
      simp only [List.length_cons]
      omega
    rw [hmod]
    rfl

/-- Codes-level decode of the encoder's own codes returns the encoder's
reconstruction values (the clamped new-predictor trajectory). -/
theorem decSamples_encCodes (samples : List Nat) :
    ∀ st : AdpcmState,
      AdpcmDec.decSamples st (AdpcmEnc.encCodes st samples) = AdpcmEnc.encRecons st samples := by
  induction samples with
  | nil => intro st; rfl
  | cons s rest ih =>
    intro st
    simp [AdpcmDec.decSamples, AdpcmEnc.encCodes, AdpcmEnc.encRecons,
      decodeStep_eq_updateState, ih]

/-- Codes-level decoder states on the encoder's own codes reproduce the
encoder's state trajectory. -/
theorem decStates_encCodes (samples : List Nat) :
    ∀ st : AdpcmState,
      AdpcmDec.decStates st (AdpcmEnc.encCodes st samples) = AdpcmEnc.encStates st samples := by
  induction samples with
  | nil => intro st; rfl
  | cons s rest ih =>
    intro st
    simp [AdpcmDec.decStates, AdpcmEnc.encCodes, AdpcmEnc.encStates,
      decodeStep_eq_updateState, ih]

/-- Every state the encoder trajectory visits satisfies the range
invariants, from any starting state. -/
theorem encStates_bounds (samples : List Nat) :
    ∀ st : AdpcmState, ∀ s ∈ AdpcmEnc.encStates st samples,
      0 ≤ s.predictor ∧ s.predictor ≤ 255 ∧ s.step_index ≤ 15 := by
  induction samples with
  | nil => intro st s hs; simp [AdpcmEnc.encStates] at hs
  | cons x rest ih =>
    intro st s hs
    simp only [AdpcmEnc.encStates, List.mem_cons] at hs
    rcases hs with h | h
    · exact h ▸ updateState_bounds st _
    · exact ih _ s h

/-- Every state the codes-level decoder trajectory visits satisfies the
range invariants, from any starting state. -/
theorem decStates_bounds (codes : List Nat) :
    ∀ st : AdpcmState, ∀ s ∈ AdpcmDec.decStates st codes,
      0 ≤ s.predictor ∧ s.predictor ≤ 255 ∧ s.step_index ≤ 15 := by
  induction codes with
  | nil => intro st s hs; simp [AdpcmDec.decStates] at hs
  | cons c rest ih =>
    intro st s hs
    simp only [AdpcmDec.decStates, List.mem_cons, decodeStep_eq_updateState] at hs
    rcases hs with h | h
    · exact h ▸ updateState_bounds st _
    · exact ih _ s (by simpa [decodeStep_eq_updateState] using h)

/-- The number of bytes the packing loop emits. -/
theorem packLoop_length (codes : List Nat) :
    ∀ cb sib : Nat, sib ≤ 3 →
      (AdpcmEnc.packLoop codes cb sib).length = (sib + codes.length + 3) / 4 := by
  induction codes with
  | nil =>
    intro cb sib hsib
    simp only [AdpcmEnc.packLoop, List.length_nil]
    split <;> simp <;> omega
  | cons c rest ih =>
    intro cb sib hsib
    simp only [AdpcmEnc.packLoop, List.length_cons]
    split
    · have h4 : sib = 3 := by omega
      simp [ih _ 0 (by omega), h4]
      omega
    · rw [ih _ (sib + 1) (by omega)]
      omega

/-- The core round-trip fact: decoding the encoder's output and keeping
the first `samples.length` values yields exactly the encoder's per-sample
reconstruction values. -/
theorem decode_encode_take (samples : List Nat) :
    (AdpcmDec.decode_2bit_adpcm (AdpcmEnc.encode_2bit_adpcm samples)).take samples.length =
      AdpcmEnc.encRecons initState samples := by
  show (AdpcmDec.decodeLoop (AdpcmEnc.encodeLoop samples initState 0 0) initState).take _ = _
  rw [decodeLoop_eq_decSamples, encodeLoop_eq_packLoop,
    unpackCodes_packLoop _ (encCodes_lt_four samples initState), decSamples_append]
  rw [decSamples_encCodes]
  have hlen : (AdpcmEnc.encRecons initState samples).length = samples.length :=
    encRecons_length samples initState
  rw [← hlen, List.take_left]

/-- Bitwise or of two multiples of `2^k` is a multiple of `2^k`. -/
theorem or_mod_two_pow_zero (a b k : Nat) (ha : a % 2 ^ k = 0) (hb : b % 2 ^ k = 0) :
    (a ||| b) % 2 ^ k = 0 := by
  apply Nat.eq_of_testBit_eq
  intro i
  rw [Nat.testBit_mod_two_pow, Nat.zero_testBit, Nat.testBit_or]
  by_cases hik : i < k
  · have hta : a.testBit i = false := by
      have := Nat.testBit_mod_two_pow a k i
      rw [ha, Nat.zero_testBit] at this
      simpa [hik] using this.symm
    have htb : b.testBit i = false := by
      have := Nat.testBit_mod_two_pow b k i
      rw [hb, Nat.zero_testBit] at this
      simpa [hik] using this.symm
    simp [hik, hta, htb]
  · simp [hik]

/-- A value shifted left by at least `k` bits is `0` modulo `2^k`. -/
theorem shiftLeft_mod_two_pow_zero (c s k : Nat) (hk : k ≤ s) : (c <<< s) % 2 ^ k = 0 := by
  rw [Nat.shiftLeft_eq]
  exact Nat.mod_eq_zero_of_dvd (Dvd.dvd.mul_left (pow_dvd_pow 2 hk) c)

/-- Being `0` modulo a larger power of two implies it for a smaller one. -/
theorem mod_two_pow_zero_mono (x j k : Nat) (hjk : j ≤ k) (hx : x % 2 ^ k = 0) :
    x % 2 ^ j = 0 :=
  Nat.mod_eq_zero_of_dvd (dvd_trans (pow_dvd_pow 2 hjk) (Nat.dvd_of_mod_eq_zero hx))

/-- A nonempty list's `getLastD` ignores the default. -/
theorem getLastD_ne_nil (l : List Nat) (x y : Nat) (h : l ≠ []) :
    l.getLastD x = l.getLastD y := by
  cases l with
  | nil => exact absurd rfl h
  | cons a t => rfl

/-- `packLoop` never returns the empty list on a nonempty code list. -/
theorem packLoop_ne_nil (codes : List Nat) (cb sib : Nat) (hsib : sib ≤ 3)
    (h : codes ≠ []) : AdpcmEnc.packLoop codes cb sib ≠ [] := by
  have hlen := packLoop_length codes cb sib hsib
  intro hnil
  rw [hnil] at hlen
  have : codes.length ≠ 0 := fun h0 => h (List.eq_nil_of_length_eq_zero h0)
  simp at hlen
  omega

/-- If the codes still to pack do not fill the final byte, that byte's
unused low-order bits are zero. -/
theorem packLoop_last_padding (codes : List Nat) :
    ∀ cb sib : Nat, sib ≤ 3 → cb % 2 ^ (8 - 2 * sib) = 0 →
      (sib + codes.length) % 4 ≠ 0 →
      (AdpcmEnc.packLoop codes cb sib).getLastD 0 %
        2 ^ (2 * (4 - (sib + codes.length) % 4)) = 0 := by
  induction codes with
  | nil =>
    intro cb sib hsib hcb hmod
    simp only [List.length_nil, Nat.add_zero] at hmod ⊢
    have hsibpos : 0 < sib := by omega
    have hexp : 2 * (4 - sib % 4) = 8 - 2 * sib := by omega
    simp only [AdpcmEnc.packLoop, hsibpos, if_pos hsibpos]
    simpa [List.getLastD, hexp] using hcb
  | cons c rest ih =>
    intro cb sib hsib hcb hmod
    simp only [AdpcmEnc.packLoop]
    by_cases h4 : sib + 1 ≥ 4
    · have hsib3 : sib = 3 := by omega
      rw [if_pos h4]
      rcases List.eq_nil_or_concat rest with hnil | _
      · subst hnil
        simp only [List.length_cons, List.length_nil] at hmod
        omega
      · have hrest : rest ≠ [] := by
          rename_i hx
          rcases hx with ⟨l, a, rfl⟩
          simp
        have hne := packLoop_ne_nil rest 0 0 (by omega) hrest
        have hmod' : (0 + rest.length) % 4 ≠ 0 := by
          simp only [List.length_cons] at hmod
          omega
        have hpad := ih 0 0 (by omega) (by simp) hmod'
        have hgl : ((cb ||| c <<< (6 - sib * 2)) :: AdpcmEnc.packLoop rest 0 0).getLastD 0 =
            (AdpcmEnc.packLoop rest 0 0).getLastD 0 := by
          rw [List.getLastD_cons]
          exact getLastD_ne_nil _ _ _ hne
        rw [hgl]
        have hexp : 2 * (4 - (sib + (c :: rest).length) % 4) =
            2 * (4 - (0 + rest.length) % 4) := by
          simp only [List.length_cons]
          omega
        rw [hexp]
        exact hpad
    · rw [if_neg h4]
      have hcb' : (cb ||| c <<< (6 - sib * 2)) % 2 ^ (8 - 2 * (sib + 1)) = 0 := by
        apply or_mod_two_pow_zero
        · exact mod_two_pow_zero_mono _ _ _ (by omega) hcb
        · exact shiftLeft_mod_two_pow_zero _ _ _ (by omega)
      have hmod' : (sib + 1 + rest.length) % 4 ≠ 0 := by
        simp only [List.length_cons] at hmod
        omega
      have hpad := ih (cb ||| c <<< (6 - sib * 2)) (sib + 1) (by omega) hcb' hmod'
      have hexp : 2 * (4 - (sib + (c :: rest).length) % 4) =
          2 * (4 - (sib + 1 + rest.length) % 4) := by
        simp only [List.length_cons]
        omega
      rw [hexp]
      exact hpad

/-- Every step-table entry at a legal index is at least 2. -/
theorem step_table_pos (i : Nat) (hi : i ≤ 15) : 2 ≤ AdpcmEnc.step_table.getD i 0 := by
  interval_cases i <;> decide

/-- The decoder extracts exactly four codes per byte. -/
theorem unpackCodes_length (bytes : List Nat) :
    (AdpcmDec.unpackCodes bytes).length = 4 * bytes.length := by
  induction bytes with
  | nil => rfl
  | cons b rest ih => simp [AdpcmDec.unpackCodes, AdpcmDec.byteCodes, ih]; omega

/-- The encoder emits one byte per four samples, rounding up. -/
theorem encode_length (samples : List Nat) :
    (AdpcmEnc.encode_2bit_adpcm samples).length = (samples.length + 3) / 4 := by
  show (AdpcmEnc.encodeLoop samples initState 0 0).length = _
  rw [encodeLoop_eq_packLoop, packLoop_length _ 0 0 (by omega), encCodes_length]
  omega

/-- When the sample count is not a multiple of 4, the unused low-order
bits of the encoder's final byte are zero. -/
theorem encode_lastByte_padding (samples : List Nat) (h : samples.length % 4 ≠ 0) :
    (AdpcmEnc.encode_2bit_adpcm samples).getLastD 0 %
      2 ^ (2 * (4 - samples.length % 4)) = 0 := by
  show (AdpcmEnc.encodeLoop samples initState 0 0).getLastD 0 % _ = 0
  rw [encodeLoop_eq_packLoop]
  have hlen := encCodes_length samples initState
  have hpad := packLoop_last_padding (AdpcmEnc.encCodes initState samples) 0 0
    (by omega) (by decide) (by omega)
  rw [Nat.zero_add, hlen] at hpad
  exact hpad

/-- Top and bottom 2-bit fields of a byte packed from four codes. -/
theorem pack4_top_bottom (a b c d : Nat) (ha : a < 4) (hb : b < 4) (hc : c < 4) (hd : d < 4) :
    (a <<< 6 ||| b <<< 4 ||| c <<< 2 ||| d) >>> 6 = a ∧
    (a <<< 6 ||| b <<< 4 ||| c <<< 2 ||| d) &&& 0x03 = d := by
  have key : ∀ x y z w : Fin 4,
      ((x : Nat) <<< 6 ||| (y : Nat) <<< 4 ||| (z : Nat) <<< 2 ||| (w : Nat)) >>> 6 = (x : Nat) ∧
      ((x : Nat) <<< 6 ||| (y : Nat) <<< 4 ||| (z : Nat) <<< 2 ||| (w : Nat)) &&& 0x03 =
        (w : Nat) := by decide
  exact key ⟨a, ha⟩ ⟨b, hb⟩ ⟨c, hc⟩ ⟨d, hd⟩

/-- C1 (counterexample): round-trip exactness fails.  For `S = [128]`,
decoding the encoder's output and keeping the first `len(S)` samples gives
`[130]`, not `[128]`: at `diff = 0` the encoder emits code 1, moving the
predictor by `+step`. -/
theorem spec_c1_counterexample :
    (AdpcmDec.decode_2bit_adpcm (AdpcmEnc.encode_2bit_adpcm [128])).take 1 ≠
      [(128 : Int)] := by decide

/-- C1 (amended): decoding the encoder's output, truncated to the original
sample count, reproduces the encoder's per-sample reconstruction values
(the clamped new-predictor trajectory) — not the original samples. -/
theorem spec_c1_roundtrip_amended (samples : List Nat) :
    (AdpcmDec.decode_2bit_adpcm (AdpcmEnc.encode_2bit_adpcm samples)).take samples.length =
      AdpcmEnc.encRecons initState samples :=
  decode_encode_take samples

/-- C2: encoder and decoder implement the same state-transition function
(the decoder's per-code step is exactly the encoder's per-code update);
on `encode(S)` the decoder's state trajectory over the first `len(S)`
codes equals the encoder's, and the first `len(S)` decoded samples are
the encoder's clamped new-predictor values. -/
theorem spec_c2_shared_transition :
    (∀ (st : AdpcmState) (code : Nat),
      AdpcmDec.decodeStep st code =
        ((AdpcmEnc.updateState st code).predictor, AdpcmEnc.updateState st code)) ∧
    (∀ samples : List Nat,
      AdpcmDec.decStates initState (AdpcmEnc.encCodes initState samples) =
        AdpcmEnc.encStates initState samples) ∧
    (∀ samples : List Nat,
      (AdpcmDec.decode_2bit_adpcm (AdpcmEnc.encode_2bit_adpcm samples)).take samples.length =
        AdpcmEnc.encRecons initState samples) :=
  ⟨decodeStep_eq_updateState, fun samples => decStates_encCodes samples initState,
   decode_encode_take⟩

/-- C3 (counterexample): encoding the silence sequence `[128,128,128,128]`
does not yield the byte `0x00`. -/
theorem spec_c3_counterexample :
    AdpcmEnc.encode_2bit_adpcm [128, 128, 128, 128] ≠ [0x00] := by decide

/-- C3 (amended): encoding `[128,128,128,128]` yields the single byte
`0x44` (codes 1,0,1,0): at `diff = 0` the encoder picks code 1, so the
predictor oscillates 130,128,130,128 while the step index stays 0. -/
theorem spec_c3_silence_amended :
    AdpcmEnc.encode_2bit_adpcm [128, 128, 128, 128] = [0x44] ∧
    AdpcmEnc.encCodes initState [128, 128, 128, 128] = [1, 0, 1, 0] ∧
    AdpcmEnc.encStates initState [128, 128, 128, 128] =
      [⟨130, 0⟩, ⟨128, 0⟩, ⟨130, 0⟩, ⟨128, 0⟩] := by decide

/-- C4: bounded state — the initial state is legal, and every state after
any per-sample encoder update and any per-code decoder update has
`predictor ∈ [0,255]` and `step_index ∈ [0,15]`. -/
theorem spec_c4_bounded_state :
    (0 ≤ initState.predictor ∧ initState.predictor ≤ 255 ∧ initState.step_index ≤ 15) ∧
    (∀ samples : List Nat, ∀ s ∈ AdpcmEnc.encStates initState samples,
      0 ≤ s.predictor ∧ s.predictor ≤ 255 ∧ s.step_index ≤ 15) ∧
    (∀ bytes : List Nat, ∀ s ∈ AdpcmDec.decStates initState (AdpcmDec.unpackCodes bytes),
      0 ≤ s.predictor ∧ s.predictor ≤ 255 ∧ s.step_index ≤ 15) :=
  ⟨by decide, fun samples => encStates_bounds samples initState,
   fun bytes => decStates_bounds (AdpcmDec.unpackCodes bytes) initState⟩

/-- C4 witness: the invariant instantiated at the encoder state reached
after the single sample `0`. -/
theorem spec_c4_bounded_state_witness :
    ((⟨124, 2⟩ : AdpcmState) ∈ AdpcmEnc.encStates initState [0]) ∧
    (0 ≤ (⟨124, 2⟩ : AdpcmState).predictor ∧ (⟨124, 2⟩ : AdpcmState).predictor ≤ 255 ∧
      (⟨124, 2⟩ : AdpcmState).step_index ≤ 15) :=
  ⟨by decide, spec_c4_bounded_state.2.1 [0] ⟨124, 2⟩ (by decide)⟩

/-- C5: the encoder's code choice satisfies the documented threshold rule
with truncating/floor division of the step by 2, where
`diff = sample - predictor` and `step = step_table[step_index]`. -/
theorem spec_c5_threshold_rule (sample : Nat) (st : AdpcmState) :
    (AdpcmEnc.chooseCode ((sample : Int) - st.predictor)
        (AdpcmEnc.step_table.getD st.step_index 0) = 2 ↔
      (sample : Int) - st.predictor <
        -(AdpcmEnc.step_table.getD st.step_index 0 : Int) -
          ((AdpcmEnc.step_table.getD st.step_index 0 / 2 : Nat) : Int)) ∧
    (AdpcmEnc.chooseCode ((sample : Int) - st.predictor)
        (AdpcmEnc.step_table.getD st.step_index 0) = 0 ↔
      (-(AdpcmEnc.step_table.getD st.step_index 0 : Int) -
          ((AdpcmEnc.step_table.getD st.step_index 0 / 2 : Nat) : Int) ≤
        (sample : Int) - st.predictor ∧ (sample : Int) - st.predictor < 0)) ∧
    (AdpcmEnc.chooseCode ((sample : Int) - st.predictor)
        (AdpcmEnc.step_table.getD st.step_index 0) = 1 ↔
      (0 ≤ (sample : Int) - st.predictor ∧
        (sample : Int) - st.predictor <
          (AdpcmEnc.step_table.getD st.step_index 0 : Int) +
            ((AdpcmEnc.step_table.getD st.step_index 0 / 2 : Nat) : Int))) ∧
    (AdpcmEnc.chooseCode ((sample : Int) - st.predictor)
        (AdpcmEnc.step_table.getD st.step_index 0) = 3 ↔
      (AdpcmEnc.step_table.getD st.step_index 0 : Int) +
          ((AdpcmEnc.step_table.getD st.step_index 0 / 2 : Nat) : Int) ≤
        (sample : Int) - st.predictor) := by
  unfold AdpcmEnc.chooseCode
  split_ifs with h1 h2 h3 <;>
    refine ⟨⟨fun hh => ?_, fun hh => ?_⟩, ⟨fun hh => ?_, fun hh => ?_⟩,
      ⟨fun hh => ?_, fun hh => ?_⟩, ⟨fun hh => ?_, fun hh => ?_⟩⟩ <;>
    first
    | exact hh.elim
    | omega

/-- C6: packing order — encoding four samples yields one byte whose bit
fields [7:6],[5:4],[3:2],[1:0] hold the codes for the four samples in
order: the top 2 bits are the code for `a`, the bottom 2 bits the code
for `d`, and the decoder's bit extraction recovers exactly these codes in
the same order. -/
theorem spec_c6_packing_order (a b c d : Nat) :
    AdpcmEnc.encode_2bit_adpcm [a, b, c, d] =
      [(AdpcmEnc.encCodes initState [a, b, c, d]).getD 0 0 <<< 6 |||
       (AdpcmEnc.encCodes initState [a, b, c, d]).getD 1 0 <<< 4 |||
       (AdpcmEnc.encCodes initState [a, b, c, d]).getD 2 0 <<< 2 |||
       (AdpcmEnc.encCodes initState [a, b, c, d]).getD 3 0] ∧
    (AdpcmEnc.encode_2bit_adpcm [a, b, c, d]).getD 0 0 >>> 6 =
      (AdpcmEnc.encCodes initState [a, b, c, d]).getD 0 0 ∧
    (AdpcmEnc.encode_2bit_adpcm [a, b, c, d]).getD 0 0 &&& 0x03 =
      (AdpcmEnc.encCodes initState [a, b, c, d]).getD 3 0 ∧
    AdpcmDec.unpackCodes (AdpcmEnc.encode_2bit_adpcm [a, b, c, d]) =
      AdpcmEnc.encCodes initState [a, b, c, d] := by
  obtain ⟨c0, c1, c2, c3, hch, h0, h1, h2, h3⟩ :
      ∃ c0 c1 c2 c3, AdpcmEnc.encCodes initState [a, b, c, d] = [c0, c1, c2, c3] ∧
        c0 < 4 ∧ c1 < 4 ∧ c2 < 4 ∧ c3 < 4 := by
    refine ⟨_, _, _, _, rfl, ?_, ?_, ?_, ?_⟩
    all_goals exact chooseCode_lt_four _ _
  have henc : AdpcmEnc.encode_2bit_adpcm [a, b, c, d] =
      [c0 <<< 6 ||| c1 <<< 4 ||| c2 <<< 2 ||| c3] := by
    show AdpcmEnc.encodeLoop [a, b, c, d] initState 0 0 = _
    rw [encodeLoop_eq_packLoop, hch]
    simp [AdpcmEnc.packLoop]
  rw [henc, hch]
  have htb := pack4_top_bottom c0 c1 c2 c3 h0 h1 h2 h3
  have hbc := byteCodes_pack4 c0 c1 c2 c3 h0 h1 h2 h3
  refine ⟨rfl, ?_, ?_, ?_⟩
  · simpa using htb.1
  · simpa using htb.2
  · simp [AdpcmDec.unpackCodes, hbc]

/-- C7: the encoder is total, emits `ceil(n/4)` bytes, the empty input
yields empty output, and a partially filled final byte is emitted with its
unused low-order bit-pairs zero. -/
theorem spec_c7_encoder_totality (samples : List Nat) :
    (AdpcmEnc.encode_2bit_adpcm samples).length = (samples.length + 3) / 4 ∧
    AdpcmEnc.encode_2bit_adpcm [] = [] ∧
    (samples.length % 4 ≠ 0 →
      (AdpcmEnc.encode_2bit_adpcm samples).getLastD 0 %
        2 ^ (2 * (4 - samples.length % 4)) = 0) :=
  ⟨encode_length samples, rfl, encode_lastByte_padding samples⟩

/-- C7 witness: for the 3-sample input `[1,2,3]` one byte is emitted and
its two lowest bits are zero. -/
theorem spec_c7_encoder_totality_witness :
    (AdpcmEnc.encode_2bit_adpcm [1, 2, 3]).length = (([1, 2, 3] : List Nat).length + 3) / 4 ∧
    ([1, 2, 3] : List Nat).length % 4 ≠ 0 ∧
    (AdpcmEnc.encode_2bit_adpcm [1, 2, 3]).getLastD 0 %
      2 ^ (2 * (4 - ([1, 2, 3] : List Nat).length % 4)) = 0 :=
  ⟨(spec_c7_encoder_totality [1, 2, 3]).1, by decide,
   (spec_c7_encoder_totality [1, 2, 3]).2.2 (by decide)⟩

/-- C8: the decoder takes no sample count and returns exactly `4·len(b)`
samples, one per 2-bit group in order; hence for a sample count that is
not a multiple of 4 the round trip yields spurious trailing samples
(strictly more decoded samples than input samples). -/
theorem spec_c8_decoder_no_truncation (bytes : List Nat) :
    (AdpcmDec.decode_2bit_adpcm bytes).length = 4 * bytes.length ∧
    AdpcmDec.decode_2bit_adpcm bytes =
      AdpcmDec.decSamples initState (AdpcmDec.unpackCodes bytes) ∧
    (∀ samples : List Nat, samples.length % 4 ≠ 0 →
      samples.length <
        (AdpcmDec.decode_2bit_adpcm (AdpcmEnc.encode_2bit_adpcm samples)).length) := by
  refine ⟨?_, ?_, ?_⟩
  · show (AdpcmDec.decodeLoop bytes initState).length = _
    rw [decodeLoop_eq_decSamples, decSamples_length, unpackCodes_length]
  · exact decodeLoop_eq_decSamples bytes initState
  · intro samples hmod
    have h1 : (AdpcmDec.decode_2bit_adpcm (AdpcmEnc.encode_2bit_adpcm samples)).length =
        4 * (AdpcmEnc.encode_2bit_adpcm samples).length := by
      show (AdpcmDec.decodeLoop _ initState).length = _
      rw [decodeLoop_eq_decSamples, decSamples_length, unpackCodes_length]
    rw [h1, encode_length]
    omega

/-- C8 witness: one byte decodes to four samples, and the 1-sample round
trip yields four decoded samples. -/
theorem spec_c8_decoder_no_truncation_witness :
    (AdpcmDec.decode_2bit_adpcm [0]).length = 4 * ([0] : List Nat).length ∧
    ([128] : List Nat).length % 4 ≠ 0 ∧
    ([128] : List Nat).length <
      (AdpcmDec.decode_2bit_adpcm (AdpcmEnc.encode_2bit_adpcm [128])).length :=
  ⟨(spec_c8_decoder_no_truncation [0]).1, by decide,
   (spec_c8_decoder_no_truncation [0]).2.2 [128] (by decide)⟩

/-- C9: encoder and decoder use identical format constants — the same
step table (the fixed monotone 16-entry sequence) and the same
index-adjustment table `[-1,-1,2,2]`. -/
theorem spec_c9_format_constants :
    AdpcmEnc.step_table = AdpcmDec.step_table ∧
    AdpcmEnc.step_table = [2, 3, 4, 5, 6, 8, 10, 13, 16, 20, 25, 32, 40, 50, 63, 80] ∧
    AdpcmEnc.index_table = AdpcmDec.index_table ∧
    AdpcmEnc.index_table = [-1, -1, 2, 2] ∧
    ∀ i j : Fin 16, i < j →
      AdpcmEnc.step_table.getD (i : Nat) 0 ≤ AdpcmEnc.step_table.getD (j : Nat) 0 := by
  refine ⟨rfl, rfl, rfl, rfl, ?_⟩
  decide

/-- C9 witness: monotonicity instantiated at the first and last index. -/
theorem spec_c9_format_constants_witness :
    ((0 : Fin 16) < (15 : Fin 16)) ∧
    AdpcmEnc.step_table.getD ((0 : Fin 16) : Nat) 0 ≤
      AdpcmEnc.step_table.getD ((15 : Fin 16) : Nat) 0 :=
  ⟨by decide, spec_c9_format_constants.2.2.2.2 0 15 (by decide)⟩

/-- C10: no zero-delta code exists — every code moves the predictor by a
nonzero delta at a legal step index; in particular when the sample equals
the predictor the encoder emits code 1 and the predictor moves by
`+step`, clamped to 255, instead of staying put. -/
theorem spec_c10_no_zero_delta (st : AdpcmState) (sample : Nat)
    (hidx : st.step_index ≤ 15) (heq : (sample : Int) = st.predictor) :
    AdpcmEnc.chooseCode ((sample : Int) - st.predictor)
      (AdpcmEnc.step_table.getD st.step_index 0) = 1 ∧
    (∀ code : Nat, code < 4 →
      AdpcmEnc.delta code (AdpcmEnc.step_table.getD st.step_index 0) ≠ 0) ∧
    (AdpcmEnc.updateState st 1).predictor =
      min (st.predictor + (AdpcmEnc.step_table.getD st.step_index 0 : Int)) 255 := by
  have hstep := step_table_pos st.step_index hidx
  refine ⟨?_, ?_, ?_⟩
  · unfold AdpcmEnc.chooseCode
    split_ifs <;> omega
  · intro code hcode
    unfold AdpcmEnc.delta
    interval_cases code <;> simp only [Nat.reduceBEq, if_true, if_false, reduceIte] <;> omega
  · unfold AdpcmEnc.updateState AdpcmEnc.delta
    norm_num
    rw [min_def]
    repeat' split
    all_goals omega

/-- C10 witness: at the initial state and sample 128 the encoder emits
code 1 and the predictor moves to 130. -/
theorem spec_c10_no_zero_delta_witness :
    initState.step_index ≤ 15 ∧ ((128 : Nat) : Int) = initState.predictor ∧
    AdpcmEnc.chooseCode (((128 : Nat) : Int) - initState.predictor)
      (AdpcmEnc.step_table.getD initState.step_index 0) = 1 ∧
    (AdpcmEnc.updateState initState 1).predictor =
      min (initState.predictor + (AdpcmEnc.step_table.getD initState.step_index 0 : Int)) 255 :=
  ⟨by decide, by decide, (spec_c10_no_zero_delta initState 128 (by decide) (by decide)).1,
   (spec_c10_no_zero_delta initState 128 (by decide) (by decide)).2.2⟩
